import Mathlib

/-!
Shallow embedding of the Huffman coder in src/Main.py (class HuffmanCoding),
together with models of the CPython builtins it relies on: dict (association
list in insertion order), heapq (CPython list-based binary heap with sift
routines), int(s, 2), bin, str.rjust, str.rstrip and string slicing.

Texts and bit strings are lists of characters; a Python exception is either
modelled by Option.none or by an explicit PyErr value.  Loops whose Python
counterpart is a while loop or unbounded recursion take an explicit fuel
argument; the fuel chosen at each call site dominates the real iteration
count, so the embedded function agrees with the Python loop on every input
(the fuel-exhausted branch coincides with the loop exit).
-/

/-- Python dict lookup d[key] as a query: the first (and only) binding. -/
def dictGet {α β : Type} [DecidableEq α] : List (α × β) → α → Option β
  | [], _ => none
  | (k, v) :: rest, key => if k = key then some v else dictGet rest key

/-- Python dict assignment d[key] = val: overwrite in place, else append
(Python dicts preserve insertion order). -/
def dictInsert {α β : Type} [DecidableEq α] : List (α × β) → α → β → List (α × β)
  | [], key, val => [(key, val)]
  | (k, v) :: rest, key, val =>
    if k = key then (k, val) :: rest else (k, v) :: dictInsert rest key val

/-- HeapNode (src/Main.py lines 43-61): a character (None on internal nodes),
a frequency, and optional left/right children (None until assigned). -/
inductive HeapNode : Type where
  | mk : Option Char → Nat → Option HeapNode → Option HeapNode → HeapNode

/-- Field access node.char. -/
def HeapNode.char : HeapNode → Option Char
  | .mk c _ _ _ => c

/-- Field access node.freq. -/
def HeapNode.freq : HeapNode → Nat
  | .mk _ f _ _ => f

/-- Field access node.left. -/
def HeapNode.left : HeapNode → Option HeapNode
  | .mk _ _ l _ => l

/-- Field access node.right. -/
def HeapNode.right : HeapNode → Option HeapNode
  | .mk _ _ _ r => r

/-- Python list indexing heap[i]; out of range yields a junk node (the sift
routines of heapq only index in range on the inputs they receive). -/
def nodeAt (l : List HeapNode) (i : Nat) : HeapNode :=
  (l[i]?).getD (HeapNode.mk none 0 none none)

/-- The while loop of CPython heapq._siftdown.  HeapNode.__lt__ (src/Main.py
line 52) compares frequencies.  pos strictly decreases each iteration, so any
fuel ≥ pos makes the run exact; at fuel 0 pos = 0 ≤ startpos and the real loop
would also exit into heap[pos] = newitem. -/
def siftdownLoop (newitem : HeapNode) (startpos : Nat) : Nat → List HeapNode → Nat → List HeapNode
  | fuel + 1, heap, pos =>
    if startpos < pos then
      let parentpos := (pos - 1) / 2
      let parent := nodeAt heap parentpos
      if newitem.freq < parent.freq then
        siftdownLoop newitem startpos fuel (heap.set pos parent) parentpos
      else heap.set pos newitem
    else heap.set pos newitem
  | 0, heap, pos => heap.set pos newitem

/-- CPython heapq._siftdown(heap, startpos, pos). -/
def siftdown (heap : List HeapNode) (startpos pos : Nat) : List HeapNode :=
  siftdownLoop (nodeAt heap pos) startpos pos heap pos

/-- The while loop of CPython heapq._siftup.  pos strictly increases and stays
below endpos, so fuel = endpos makes the run exact; at fuel 0 the childpos
guard is already false and the real loop would also exit. -/
def siftupLoop (endpos startpos : Nat) (newitem : HeapNode) : Nat → List HeapNode → Nat → List HeapNode
  | fuel + 1, heap, pos =>
    let childpos := 2 * pos + 1
    if childpos < endpos then
      let rightpos := childpos + 1
      let childpos2 :=
        if rightpos < endpos ∧ ¬ (nodeAt heap childpos).freq < (nodeAt heap rightpos).freq then
          rightpos
        else childpos
      siftupLoop endpos startpos newitem fuel (heap.set pos (nodeAt heap childpos2)) childpos2
    else siftdown (heap.set pos newitem) startpos pos
  | 0, heap, pos => siftdown (heap.set pos newitem) startpos pos

/-- CPython heapq._siftup(heap, pos). -/
def siftup (heap : List HeapNode) (pos : Nat) : List HeapNode :=
  siftupLoop heap.length pos (nodeAt heap pos) heap.length heap pos

/-- CPython heapq.heappush: append then sift down from the last slot. -/
def heappush (heap : List HeapNode) (item : HeapNode) : List HeapNode :=
  let h2 := heap ++ [item]
  siftdown h2 0 (h2.length - 1)

/-- CPython heapq.heappop: remove the last element; on the empty list this is
list.pop() raising IndexError, modelled as none.  Otherwise the root is
returned and the last element is sifted from slot 0. -/
def heappop (heap : List HeapNode) : Option (HeapNode × List HeapNode) :=
  match heap.getLast? with
  | none => none
  | some lastelt =>
    match heap.dropLast with
    | [] => some (lastelt, [])
    | x :: rest => some (x, siftup ((x :: rest).set 0 lastelt) 0)

/-- The while loop of merge_codes (src/Main.py lines 79-88).  Each iteration
removes two nodes and pushes one, so fuel = initial length makes the run
exact; at fuel 0 the length is at most 1 and the real loop would also exit. -/
def mergeLoop : Nat → List HeapNode → List HeapNode
  | fuel + 1, heap =>
    if heap.length > 1 then
      match heappop heap with
      | none => heap
      | some (node1, h1) =>
        match heappop h1 with
        | none => h1
        | some (node2, h2) =>
          mergeLoop fuel
            (heappush h2 (HeapNode.mk none (node1.freq + node2.freq) (some node1) (some node2)))
    else heap
  | 0, heap => heap

/-- HuffmanCoding.merge_codes (src/Main.py lines 79-88), acting on self.heap. -/
def merge_codes (heap : List HeapNode) : List HeapNode :=
  mergeLoop heap.length heap

/-- HuffmanCoding.make_frequency_dict (src/Main.py lines 64-70). -/
def make_frequency_dict (text : List Char) : List (Char × Nat) :=
  text.foldl
    (fun frequency ch =>
      let f1 := if (dictGet frequency ch).isNone then dictInsert frequency ch 0 else frequency
      dictInsert f1 ch ((dictGet f1 ch).getD 0 + 1))
    []

/-- HuffmanCoding.make_heap (src/Main.py lines 73-76). -/
def make_heap (frequency : List (Char × Nat)) (heap : List HeapNode) : List HeapNode :=
  frequency.foldl (fun h kv => heappush h (HeapNode.mk (some kv.1) kv.2 none none)) heap

/-- The Python exceptions the embedded code can raise. -/
inductive PyErr : Type where
  | indexError
  | recursionError
  | keyError
  | valueError
deriving DecidableEq

/-- HuffmanCoding.make_codes_helper (src/Main.py lines 91-100), with fuel
bounding the recursion depth (Python's interpreter stack; exhaustion is
RecursionError, modelled as none).  Note line 100 of the source recurses on
node itself, not on node.right; the embedding reproduces that. -/
def make_codes_helper :
    Nat → Option HeapNode → List Char → List (Char × List Char) → List (List Char × Char) →
      Option (List (Char × List Char) × List (List Char × Char))
  | 0, _, _, _, _ => none
  | _ + 1, none, _, codes, rev => some (codes, rev)
  | fuel + 1, some nd, current_code, codes, rev =>
    let codes1 := match nd.char with
      | some c => dictInsert codes c current_code
      | none => codes
    let rev1 := match nd.char with
      | some c => dictInsert rev current_code c
      | none => rev
    match make_codes_helper fuel nd.left (current_code ++ ['0']) codes1 rev1 with
    | none => none
    | some (codes2, rev2) =>
      make_codes_helper fuel (some nd) (current_code ++ ['1']) codes2 rev2

/-- HuffmanCoding.make_codes (src/Main.py lines 103-106): pop the root (an
IndexError on an empty heap) and run the helper from the empty code. -/
def make_codesE (fuel : Nat) (heap : List HeapNode) :
    Except PyErr (List (Char × List Char) × List (List Char × Char)) :=
  match heappop heap with
  | none => .error .indexError
  | some (root, _) =>
    match make_codes_helper fuel (some root) [] [] [] with
    | none => .error .recursionError
    | some st => .ok st

/-- The for loop of get_encoded_text, accumulating encoded_text. -/
def getEncodedLoop (codes : List (Char × List Char)) : List Char → List Char → Option (List Char)
  | acc, [] => some acc
  | acc, ch :: rest =>
    match dictGet codes ch with
    | none => none
    | some code => getEncodedLoop codes (acc ++ code) rest

/-- HuffmanCoding.get_encoded_text (src/Main.py lines 109-113); a symbol
absent from self.codes raises KeyError, modelled as none. -/
def get_encoded_text (codes : List (Char × List Char)) (text : List Char) : Option (List Char) :=
  getEncodedLoop codes [] text

/-- The binary digits of n, most significant first (empty for 0); fuel = n
dominates the number of halvings. -/
def binDigits : Nat → Nat → List Char
  | 0, _ => []
  | _ + 1, 0 => []
  | fuel + 1, n + 1 =>
    binDigits fuel ((n + 1) / 2) ++ [if (n + 1) % 2 = 1 then '1' else '0']

/-- The digit string of Python bin(n) without its 0b tag ("0" for 0). -/
def natToBin (n : Nat) : List Char :=
  if n = 0 then ['0'] else binDigits n n

/-- The Python format spec {0:08b}: binary, zero padded on the left to
width 8. -/
def format08b (n : Nat) : List Char :=
  List.replicate (8 - (natToBin n).length) '0' ++ natToBin n

/-- HuffmanCoding.pad_encoded_text (src/Main.py lines 116-124): append
8 - len % 8 zero bits (8 of them when the length is already a multiple of 8)
and prepend that count as an 8-bit header. -/
def pad_encoded_text (encoded_text : List Char) : List Char :=
  let extra_padding := 8 - encoded_text.length % 8
  let encoded2 := encoded_text ++ List.replicate extra_padding '0'
  let padded_info := format08b extra_padding
  padded_info ++ encoded2

/-- The successive slices padded_encoded_text[i:i+8] for i = 0, 8, 16, ... -/
def chunks8 : List Char → List (List Char)
  | [] => []
  | a :: b :: c :: d :: e :: f :: g :: h :: rest => [a, b, c, d, e, f, g, h] :: chunks8 rest
  | l => [l]

/-- The value of one character as a binary digit; anything else makes
int(s, 2) raise ValueError. -/
def binDigit (c : Char) : Option Nat :=
  if c = '0' then some 0 else if c = '1' then some 1 else none

/-- Left-to-right accumulation of int(s, 2). -/
def binToNatLoop : Nat → List Char → Option Nat
  | acc, [] => some acc
  | acc, c :: rest =>
    match binDigit c with
    | none => none
    | some d => binToNatLoop (acc * 2 + d) rest

/-- Python int(s, 2) on a digits-only string; the empty string and any
non-digit raise ValueError, modelled as none. -/
def binToNat : List Char → Option Nat
  | [] => none
  | s => binToNatLoop 0 s

/-- HuffmanCoding.get_byte_array (src/Main.py lines 127-133): parse each
8-character slice as a byte value. -/
def get_byte_array (padded_encoded_text : List Char) : Option (List Nat) :=
  (chunks8 padded_encoded_text).mapM binToNat

/-- HuffmanCoding.remove_padding (src/Main.py lines 160-167): read the 8-bit
header, drop it, then take bit_string[:-1 * extra_padding] — which is the
slice [:0], the empty string, when extra_padding is 0. -/
def remove_padding (bit_string : List Char) : Option (List Char) :=
  let padded_info := bit_string.take 8
  match binToNat padded_info with
  | none => none
  | some extra_padding =>
    let rest := bit_string.drop 8
    some (if extra_padding = 0 then [] else rest.take (rest.length - extra_padding))

/-- HuffmanCoding.decode_text (src/Main.py lines 170-181).  The source's
return statement is inside the for loop, so the function returns during the
first iteration (and returns Python None, here none, on an empty input, since
the loop body never runs and the function falls through). -/
def decode_text (reverse_mapping : List (List Char × Char)) (encoded_text : List Char) :
    Option (List Char) :=
  match encoded_text with
  | [] => none
  | bit :: _ =>
    let current_code := [bit]
    match dictGet reverse_mapping current_code with
    | some character => some [character]
    | none => some []

/-- Python bin(n): the 0b tag followed by the binary digits. -/
def pyBin (n : Nat) : List Char :=
  '0' :: 'b' :: natToBin n

/-- Python s.rjust(8, zero): pad on the left with '0' to length 8. -/
def pyRjust8 (s : List Char) : List Char :=
  List.replicate (8 - s.length) '0' ++ s

/-- The byte-to-bit-string conversion of HuffmanCoding.decompress
(src/Main.py line 194): bin(byte).rjust(8, zero), keeping the 0b tag. -/
def byteToBits (b : Nat) : List Char :=
  pyRjust8 (pyBin b)

/-- The whitespace characters Python str.rstrip removes from ASCII text:
space, tab, newline, carriage return, vertical tab, form feed. -/
def pyIsSpace (c : Char) : Bool :=
  c = ' ' || c = '\t' || c = '\n' || c = '\r' || c = Char.ofNat 11 || c = Char.ofNat 12

/-- Python text.rstrip(): remove trailing whitespace. -/
def pyRstrip (s : List Char) : List Char :=
  (s.reverse.dropWhile pyIsSpace).reverse

/-- The in-memory core of HuffmanCoding.compress (src/Main.py lines 140-154),
file handling stripped: rstrip the text, build frequencies, heap and tree,
derive codes, encode, pad and pack into bytes. -/
def compressCore (fuel : Nat) (text : List Char) : Except PyErr (List Nat) :=
  let t := pyRstrip text
  let frequency := make_frequency_dict t
  let heap1 := make_heap frequency []
  let heap2 := merge_codes heap1
  match make_codesE fuel heap2 with
  | .error e => .error e
  | .ok (codes, _rev) =>
    match get_encoded_text codes t with
    | none => .error .keyError
    | some encoded =>
      let padded := pad_encoded_text encoded
      match get_byte_array padded with
      | none => .error .valueError
      | some b => .ok b

/-- Sum of the counts stored in a frequency dict. -/
def sumVals (d : List (Char × Nat)) : Nat :=
  (d.map (fun kv => kv.2)).sum

/-- The tree-weight invariant: a node either has no children, or has both and
carries the sum of their frequencies, recursively. -/
def wfB : HeapNode → Bool
  | .mk _ _ none none => true
  | .mk _ f (some l) (some r) => (f == l.freq + r.freq) && wfB l && wfB r
  | .mk _ _ _ _ => false

/-- Sum of the frequencies of all leaves below a node. -/
def leafSum : HeapNode → Nat
  | .mk _ f none none => f
  | .mk _ _ (some l) none => leafSum l
  | .mk _ _ none (some r) => leafSum r
  | .mk _ _ (some l) (some r) => leafSum l + leafSum r

/-! Helper lemmas. -/

/-- Line 100 of the source recurses on node itself, so no recursion depth
suffices on any non-None node: the helper diverges (RecursionError). -/
theorem makeCodesHelper_diverges :
    ∀ (fuel : Nat) (nd : HeapNode) (code : List Char) (codes : List (Char × List Char))
      (rev : List (List Char × Char)),
      make_codes_helper fuel (some nd) code codes rev = none := by
  intro fuel
  induction fuel with
  | zero => intro nd code codes rev; rfl
  | succ n ih =>
    intro nd code codes rev
    simp only [make_codes_helper]
    cases h : make_codes_helper n nd.left (code ++ ['0'])
        (match nd.char with
          | some c => dictInsert codes c code
          | none => codes)
        (match nd.char with
          | some c => dictInsert rev code c
          | none => rev) with
    | none => rfl
    | some st => exact ih nd (code ++ ['1']) st.1 st.2

theorem nodeAt_mem {l : List HeapNode} {i : Nat} (h : i < l.length) : nodeAt l i ∈ l := by
  simp only [nodeAt, List.getElem?_eq_getElem h, Option.getD_some]
  exact List.getElem_mem h

theorem siftdownLoop_mem :
    ∀ (fuel : Nat) (newitem : HeapNode) (startpos : Nat) (heap : List HeapNode) (pos : Nat),
      pos < heap.length → ∀ y ∈ siftdownLoop newitem startpos fuel heap pos,
        y = newitem ∨ y ∈ heap := by
  intro fuel
  induction fuel with
  | zero =>
    intro newitem startpos heap pos _ y hy
    rcases List.mem_or_eq_of_mem_set hy with h | h
    · exact Or.inr h
    · exact Or.inl h
  | succ n ih =>
    intro newitem startpos heap pos hpos y hy
    simp only [siftdownLoop] at hy
    by_cases hsp : startpos < pos
    · simp only [if_pos hsp] at hy
      have hpp : (pos - 1) / 2 < pos := by
        have := Nat.div_le_self (pos - 1) 2
        omega
      by_cases hlt : newitem.freq < (nodeAt heap ((pos - 1) / 2)).freq
      · simp only [if_pos hlt] at hy
        have hpp' : (pos - 1) / 2 < (heap.set pos (nodeAt heap ((pos - 1) / 2))).length := by
          rw [List.length_set]; omega
        rcases ih newitem startpos _ _ hpp' y hy with h | h
        · exact Or.inl h
        · rcases List.mem_or_eq_of_mem_set h with h' | h'
          · exact Or.inr h'
          · exact Or.inr (h' ▸ nodeAt_mem (by omega))
      · simp only [if_neg hlt] at hy
        rcases List.mem_or_eq_of_mem_set hy with h' | h'
        · exact Or.inr h'
        · exact Or.inl h'
    · simp only [if_neg hsp] at hy
      rcases List.mem_or_eq_of_mem_set hy with h' | h'
      · exact Or.inr h'
      · exact Or.inl h'

theorem siftdown_mem {heap : List HeapNode} {startpos pos : Nat} (hpos : pos < heap.length) :
    ∀ y ∈ siftdown heap startpos pos, y ∈ heap := by
  intro y hy
  rcases siftdownLoop_mem pos (nodeAt heap pos) startpos heap pos hpos y hy with h | h
  · exact h ▸ nodeAt_mem hpos
  · exact h

theorem siftupLoop_mem :
    ∀ (fuel endpos startpos : Nat) (newitem : HeapNode) (heap : List HeapNode) (pos : Nat),
      endpos ≤ heap.length → pos < endpos → ∀ y ∈ siftupLoop endpos startpos newitem fuel heap pos,
        y = newitem ∨ y ∈ heap := by
  intro fuel
  induction fuel with
  | zero =>
    intro endpos startpos newitem heap pos hend hpos y hy
    simp only [siftupLoop] at hy
    have hpl : pos < (heap.set pos newitem).length := by rw [List.length_set]; omega
    have h1 := siftdown_mem hpl y hy
    rcases List.mem_or_eq_of_mem_set h1 with h | h
    · exact Or.inr h
    · exact Or.inl h
  | succ n ih =>
    intro endpos startpos newitem heap pos hend hpos y hy
    simp only [siftupLoop] at hy
    by_cases hc : 2 * pos + 1 < endpos
    · simp only [if_pos hc] at hy
      set childpos2 :=
        if 2 * pos + 1 + 1 < endpos ∧
            ¬ (nodeAt heap (2 * pos + 1)).freq < (nodeAt heap (2 * pos + 1 + 1)).freq then
          2 * pos + 1 + 1
        else 2 * pos + 1 with hc2
      have hc2lt : childpos2 < endpos := by
        rw [hc2]; split
        · omega
        · omega
      have hmem2 : nodeAt heap childpos2 ∈ heap := nodeAt_mem (by omega)
      have hend' : endpos ≤ (heap.set pos (nodeAt heap childpos2)).length := by
        rw [List.length_set]; omega
      rcases ih endpos startpos newitem _ childpos2 hend' hc2lt y hy with h | h
      · exact Or.inl h
      · rcases List.mem_or_eq_of_mem_set h with h' | h'
        · exact Or.inr h'
        · exact Or.inr (h' ▸ hmem2)
    · simp only [if_neg hc] at hy
      have hpl : pos < (heap.set pos newitem).length := by rw [List.length_set]; omega
      have h1 := siftdown_mem hpl y hy
      rcases List.mem_or_eq_of_mem_set h1 with h | h
      · exact Or.inr h
      · exact Or.inl h

theorem siftup_mem {heap : List HeapNode} {pos : Nat} (hpos : pos < heap.length) :
    ∀ y ∈ siftup heap pos, y ∈ heap := by
  intro y hy
  rcases siftupLoop_mem heap.length heap.length pos (nodeAt heap pos) heap pos le_rfl hpos y hy
    with h | h
  · exact h ▸ nodeAt_mem hpos
  · exact h

theorem heappush_mem {heap : List HeapNode} {item : HeapNode} :
    ∀ y ∈ heappush heap item, y = item ∨ y ∈ heap := by
  intro y hy
  simp only [heappush] at hy
  have hlen : (heap ++ [item]).length - 1 < (heap ++ [item]).length := by
    simp [List.length_append]
  have h1 := siftdown_mem hlen y hy
  rcases List.mem_append.mp h1 with h | h
  · exact Or.inr h
  · exact Or.inl (List.mem_singleton.mp h)

theorem heappop_mem {heap h' : List HeapNode} {x : HeapNode}
    (h : heappop heap = some (x, h')) : x ∈ heap ∧ ∀ y ∈ h', y ∈ heap := by
  unfold heappop at h
  cases hl : heap.getLast? with
  | none => rw [hl] at h; exact absurd h (by simp)
  | some lastelt =>
    rw [hl] at h
    have hlast : lastelt ∈ heap := List.mem_of_mem_getLast? hl
    cases hd : heap.dropLast with
    | nil =>
      rw [hd] at h
      simp only [Option.some.injEq, Prod.mk.injEq] at h
      refine ⟨h.1 ▸ hlast, ?_⟩
      intro y hy
      rw [← h.2] at hy
      exact absurd hy (List.not_mem_nil y)
    | cons z rest =>
      rw [hd] at h
      simp only [Option.some.injEq, Prod.mk.injEq] at h
      have hsub : ∀ w ∈ z :: rest, w ∈ heap := by
        intro w hw
        exact (hd ▸ List.dropLast_sublist heap).subset hw
      constructor
      · exact h.1 ▸ hsub z (List.mem_cons_self z rest)
      · intro y hy
        rw [← h.2] at hy
        have hset : (z :: rest).set 0 lastelt = lastelt :: rest := rfl
        rw [hset] at hy
        have hy2 := siftup_mem (by simp) y hy
        rcases List.mem_cons.mp hy2 with h' | h'
        · exact h' ▸ hlast
        · exact hsub y (List.mem_cons_of_mem z h')


theorem mergeLoop_inv (P : HeapNode → Prop)
    (hstep : ∀ n1 n2, P n1 → P n2 →
      P (HeapNode.mk none (n1.freq + n2.freq) (some n1) (some n2))) :
    ∀ (fuel : Nat) (heap : List HeapNode), (∀ n ∈ heap, P n) →
      ∀ n ∈ mergeLoop fuel heap, P n := by
  intro fuel
  induction fuel with
  | zero => intro heap hheap; exact hheap
  | succ m ih =>
    intro heap hheap n hn
    simp only [mergeLoop] at hn
    by_cases hlen : heap.length > 1
    · simp only [if_pos hlen] at hn
      split at hn
      · exact hheap n hn
      · rename_i node1 rest1 h1
        have hm1 := heappop_mem h1
        split at hn
        · exact hheap n (hm1.2 n hn)
        · rename_i node2 rest2 h2
          have hm2 := heappop_mem h2
          refine ih _ ?_ n hn
          intro w hw
          rcases heappush_mem w hw with h | h
          · subst h
            exact hstep node1 node2 (hheap _ hm1.1) (hheap _ (hm1.2 _ hm2.1))
          · exact hheap w (hm1.2 w (hm2.2 w h))
    · simp only [if_neg hlen] at hn
      exact hheap n hn

theorem make_heap_inv (P : HeapNode → Prop)
    (hleaf : ∀ c f, P (HeapNode.mk (some c) f none none)) :
    ∀ (frequency : List (Char × Nat)) (heap : List HeapNode), (∀ n ∈ heap, P n) →
      ∀ n ∈ make_heap frequency heap, P n := by
  intro frequency
  induction frequency with
  | nil => intro heap hheap; exact hheap
  | cons kv rest ih =>
    intro heap hheap n hn
    simp only [make_heap, List.foldl_cons] at hn
    refine ih (heappush heap (HeapNode.mk (some kv.1) kv.2 none none)) ?_ n hn
    intro w hw
    rcases heappush_mem w hw with h | h
    · exact h ▸ hleaf kv.1 kv.2
    · exact hheap w h

theorem sumVals_nil : sumVals [] = 0 := rfl

theorem sumVals_cons (kv : Char × Nat) (d : List (Char × Nat)) :
    sumVals (kv :: d) = kv.2 + sumVals d := by
  simp [sumVals]

theorem dictGet_dictInsert_self {β : Type} (d : List (Char × β)) (k : Char) (v : β) :
    dictGet (dictInsert d k v) k = some v := by
  induction d with
  | nil => simp [dictGet, dictInsert]
  | cons kv rest ih =>
    obtain ⟨k', v'⟩ := kv
    by_cases h : k' = k
    · simp [dictGet, dictInsert, h]
    · simp [dictGet, dictInsert, h, ih]

theorem sumVals_dictInsert_none (d : List (Char × Nat)) (k : Char) (v : Nat)
    (h : dictGet d k = none) : sumVals (dictInsert d k v) = sumVals d + v := by
  induction d with
  | nil => simp [sumVals, dictInsert]
  | cons kv rest ih =>
    obtain ⟨k', v'⟩ := kv
    by_cases hk : k' = k
    · simp [dictGet, hk] at h
    · simp only [dictGet, if_neg hk] at h
      simp only [dictInsert, if_neg hk, sumVals_cons]
      rw [ih h]; omega

theorem sumVals_dictInsert_some (d : List (Char × Nat)) (k : Char) (v w : Nat)
    (h : dictGet d k = some w) : sumVals (dictInsert d k v) + w = sumVals d + v := by
  induction d with
  | nil => simp [dictGet] at h
  | cons kv rest ih =>
    obtain ⟨k', v'⟩ := kv
    by_cases hk : k' = k
    · simp only [dictGet, if_pos hk, Option.some.injEq] at h
      simp only [dictInsert, if_pos hk, sumVals_cons]
      omega
    · simp only [dictGet, if_neg hk] at h
      simp only [dictInsert, if_neg hk, sumVals_cons]
      have := ih h
      omega

theorem sumVals_freqStep (d : List (Char × Nat)) (ch : Char) :
    sumVals
      (dictInsert (if (dictGet d ch).isNone then dictInsert d ch 0 else d) ch
        ((dictGet (if (dictGet d ch).isNone then dictInsert d ch 0 else d) ch).getD 0 + 1)) =
      sumVals d + 1 := by
  cases h : dictGet d ch with
  | none =>
    simp only [h, Option.isNone_none, if_true, dictGet_dictInsert_self, Option.getD_some]
    have h1 :=
      sumVals_dictInsert_some (dictInsert d ch 0) ch (0 + 1) 0 (dictGet_dictInsert_self d ch 0)
    have h2 := sumVals_dictInsert_none d ch 0 h
    omega
  | some w =>
    simp only [h, Option.isNone_some, Bool.false_eq_true, if_false, Option.getD_some]
    have := sumVals_dictInsert_some d ch (w + 1) w h
    omega

theorem sumVals_freq_foldl :
    ∀ (text : List Char) (d : List (Char × Nat)),
      sumVals
        (text.foldl
          (fun frequency ch =>
            let f1 :=
              if (dictGet frequency ch).isNone then dictInsert frequency ch 0 else frequency
            dictInsert f1 ch ((dictGet f1 ch).getD 0 + 1))
          d) = sumVals d + text.length := by
  intro text
  induction text with
  | nil => intro d; simp
  | cons ch rest ih =>
    intro d
    simp only [List.foldl_cons, List.length_cons]
    rw [ih, sumVals_freqStep d ch]
    omega

theorem getEncodedLoop_none (codes : List (Char × List Char)) :
    ∀ (text acc : List Char), (∃ c ∈ text, dictGet codes c = none) →
      getEncodedLoop codes acc text = none := by
  intro text
  induction text with
  | nil =>
    intro acc h
    obtain ⟨c, hc, _⟩ := h
    exact absurd hc (List.not_mem_nil c)
  | cons ch rest ih =>
    intro acc h
    simp only [getEncodedLoop]
    cases hg : dictGet codes ch with
    | none => rfl
    | some code =>
      obtain ⟨c, hc, hcn⟩ := h
      rcases List.mem_cons.mp hc with rfl | hcr
      · rw [hg] at hcn; exact absurd hcn (by simp)
      · exact ih (acc ++ code) ⟨c, hcr, hcn⟩

theorem getEncodedLoop_some (codes : List (Char × List Char)) :
    ∀ (text acc : List Char), (∀ c ∈ text, (dictGet codes c).isSome) →
      getEncodedLoop codes acc text =
        some (acc ++ (text.map (fun c => (dictGet codes c).getD [])).flatten) := by
  intro text
  induction text with
  | nil => intro acc _; simp [getEncodedLoop]
  | cons ch rest ih =>
    intro acc h
    obtain ⟨code, hg⟩ := Option.isSome_iff_exists.mp (h ch (List.mem_cons_self ch rest))
    simp only [getEncodedLoop, hg]
    rw [ih (acc ++ code) (fun c hc => h c (List.mem_cons_of_mem ch hc))]
    simp [hg, List.append_assoc]

theorem dropWhile_dropWhile_self (p : Char → Bool) :
    ∀ l : List Char, (l.dropWhile p).dropWhile p = l.dropWhile p := by
  intro l
  induction l with
  | nil => rfl
  | cons a rest ih =>
    by_cases h : p a
    · simp [List.dropWhile_cons, h, ih]
    · simp [List.dropWhile_cons, h]

theorem pyRstrip_idem (s : List Char) : pyRstrip (pyRstrip s) = pyRstrip s := by
  simp only [pyRstrip, List.reverse_reverse, dropWhile_dropWhile_self]

theorem pyRstrip_decomp (text : List Char) :
    text = pyRstrip text ++ (text.reverse.takeWhile pyIsSpace).reverse := by
  conv_lhs =>
    rw [← List.reverse_reverse text,
      ← List.takeWhile_append_dropWhile (p := pyIsSpace) (l := text.reverse)]
  rw [List.reverse_append]
  rfl

theorem pyRstrip_all_space (text : List Char) (h : ∀ c ∈ text, pyIsSpace c = true) :
    pyRstrip text = [] := by
  unfold pyRstrip
  rw [show List.dropWhile pyIsSpace text.reverse = [] from
    List.dropWhile_eq_nil_iff.mpr (fun x hx => h x (List.mem_reverse.mp hx))]
  rfl

theorem make_codesE_recursionError (fuel : Nat) (heap : List HeapNode) (root : HeapNode)
    (rest : List HeapNode) (h : heappop heap = some (root, rest)) :
    make_codesE fuel heap = Except.error PyErr.recursionError := by
  unfold make_codesE
  rw [h]
  simp [makeCodesHelper_diverges]

/-- A two-symbol Code Table, as make_codes would ideally produce it for a
two-symbol alphabet. -/
def codesAB : List (Char × List Char) := [('a', ['0']), ('b', ['1'])]

/-- The Reverse Mapping of codesAB. -/
def revAB : List (List Char × Char) := [(['0'], 'a'), (['1'], 'b')]

/-! Claim theorems. -/

/-- C1 (counter-evidence, code bug).  The claim says decoding the encoded bit
stream (after padding is added and removed) returns the original text.  With
the Code Table a:0, b:1 and text "ab", the pipeline returns "a": the source's
return statement sits inside decode_text's for loop (line 181), so decoding
stops after the first bit. -/
theorem c1_roundtrip_broken :
    (get_encoded_text codesAB ['a', 'b']).bind
        (fun enc => (remove_padding (pad_encoded_text enc)).bind
          (fun r => decode_text revAB r)) = some ['a'] ∧
      (['a'] : List Char) ≠ ['a', 'b'] := by
  decide

/-- C2 (counter-evidence, code bug).  The claim says the padding count p
satisfies 0 ≤ p ≤ 7 and is 0 when the encoded length is a multiple of 8.  On
an 8-bit encoded text the source computes 8 - 8 % 8 = 8: the header byte holds
8 and a full spurious padding byte is appended (24 bits total, not 16). -/
theorem c2_padding_eight :
    binToNat ((pad_encoded_text ['0', '1', '0', '1', '0', '1', '0', '1']).take 8) = some 8 ∧
      (pad_encoded_text ['0', '1', '0', '1', '0', '1', '0', '1']).length = 24 := by
  decide

/-- C3 (counter-evidence, code bug).  The claim says the code-generation
traversal terminates and descends into the right child appending a one bit.
Line 100 of the source recurses on node itself instead of node.right, so on
every non-None node the helper exhausts any recursion depth (RecursionError in
Python): no fuel bound returns a result. -/
theorem c3_make_codes_helper_diverges (fuel : Nat) (nd : HeapNode) (current_code : List Char)
    (codes : List (Char × List Char)) (rev : List (List Char × Char)) :
    make_codes_helper fuel (some nd) current_code codes rev = none :=
  makeCodesHelper_diverges fuel nd current_code codes rev

/-- C4 (counterexample).  The claim says an empty Frequency Table is rejected
with a distinct EmptyInput error rather than popping from an empty structure.
In fact the merge loop silently does nothing on the empty heap and make_codes
then pops the empty heap unconditionally, so the failure is the IndexError of
that very pop. -/
theorem c4_no_empty_input_check :
    compressCore 100 [] = Except.error PyErr.indexError ∧
      heappop (merge_codes (make_heap (make_frequency_dict []) [])) = none :=
  ⟨rfl, rfl⟩

/-- C4 (amended).  Compressing an empty text fails for every recursion budget,
with the IndexError raised by make_codes popping the empty heap; the merge
loop leaves the empty heap unchanged.  No distinct EmptyInput error exists. -/
theorem c4_empty_input_index_error (fuel : Nat) :
    merge_codes (make_heap (make_frequency_dict []) []) = [] ∧
      compressCore fuel [] = Except.error PyErr.indexError :=
  ⟨rfl, rfl⟩

/-- C5 (counter-evidence, code bug).  The claim says a one-entry Frequency
Table yields a single-leaf root whose symbol is assigned the code "0".  The
heap indeed collapses to the single leaf, but make_codes then diverges on it
(the line-100 bug), raising RecursionError for every recursion budget, so no
code table is ever produced. -/
theorem c5_single_symbol_diverges (fuel : Nat) :
    merge_codes (make_heap (make_frequency_dict ['a']) []) =
        [HeapNode.mk (some 'a') 1 none none] ∧
      make_codesE fuel (merge_codes (make_heap (make_frequency_dict ['a']) [])) =
        Except.error PyErr.recursionError :=
  ⟨rfl, make_codesE_recursionError fuel _ (HeapNode.mk (some 'a') 1 none none) [] rfl⟩

/-- C6 (confirmed).  The counts of make_frequency_dict sum to the length of
the input text, and every node the merge loop leaves on the heap satisfies the
tree-weight invariant: each internal node carries the sum of its two
children's frequencies, and the total leaf weight below the root equals the
root's frequency. -/
theorem c6_frequency_conservation (text : List Char) :
    sumVals (make_frequency_dict text) = text.length ∧
      ∀ root ∈ merge_codes (make_heap (make_frequency_dict text) []),
        wfB root = true ∧ leafSum root = root.freq := by
  constructor
  · have h := sumVals_freq_foldl text []
    rw [sumVals_nil] at h
    simpa [make_frequency_dict] using h
  · intro root hroot
    refine mergeLoop_inv (fun n => wfB n = true ∧ leafSum n = n.freq) ?_ _ _ ?_ root hroot
    · intro n1 n2 h1 h2
      refine ⟨?_, ?_⟩
      · simp [wfB, HeapNode.freq, h1.1, h2.1]
      · simp [leafSum, HeapNode.freq, h1.2, h2.2]
    · refine make_heap_inv _ ?_ _ [] (by simp)
      intro c f
      exact ⟨rfl, rfl⟩

/-- The tree the embedded merge loop builds for the text "aaabbc". -/
def rootW : HeapNode :=
  HeapNode.mk none 6 (some (HeapNode.mk (some 'a') 3 none none))
    (some (HeapNode.mk none 3 (some (HeapNode.mk (some 'c') 1 none none))
      (some (HeapNode.mk (some 'b') 2 none none))))

/-- C6 witness: the invariant instantiated on the concrete text "aaabbc" and
the root the merge loop actually produces for it. -/
theorem c6_frequency_conservation_witness :
    sumVals (make_frequency_dict ['a', 'a', 'a', 'b', 'b', 'c']) = 6 ∧
      wfB rootW = true ∧ leafSum rootW = rootW.freq := by
  have hmem : rootW ∈ merge_codes (make_heap (make_frequency_dict ['a', 'a', 'a', 'b', 'b', 'c']) []) := by
    rw [show merge_codes (make_heap (make_frequency_dict ['a', 'a', 'a', 'b', 'b', 'c']) []) =
      [rootW] from rfl]
    exact List.mem_singleton_self rootW
  exact ⟨(c6_frequency_conservation ['a', 'a', 'a', 'b', 'b', 'c']).1,
    (c6_frequency_conservation ['a', 'a', 'a', 'b', 'b', 'c']).2 rootW hmem⟩

/-- C7 (counter-evidence, code bug).  The claim says the decompressor's
byte-to-bits conversion inverts the compressor's bits-to-byte conversion.  The
compressor parses "00000101" as the byte 5, but the decompressor renders 5 as
bin(5).rjust(8, zero) = "0000b101", keeping the 0b tag of Python's bin, so the
padded bit string is never reproduced. -/
theorem c7_byte_unpacking_broken :
    get_byte_array ['0', '0', '0', '0', '0', '1', '0', '1'] = some [5] ∧
      byteToBits 5 = ['0', '0', '0', '0', 'b', '1', '0', '1'] ∧
      byteToBits 5 ≠ ['0', '0', '0', '0', '0', '1', '0', '1'] := by
  decide

/-- C8 (confirmed).  If some symbol of the text is absent from the Code Table,
get_encoded_text raises (KeyError, modelled as none); if every symbol is
present it returns the concatenation, in input order, of each symbol's
code. -/
theorem c8_unknown_symbol (codes : List (Char × List Char)) (text : List Char) :
    ((∃ c ∈ text, dictGet codes c = none) → get_encoded_text codes text = none) ∧
      ((∀ c ∈ text, (dictGet codes c).isSome) →
        get_encoded_text codes text =
          some ((text.map (fun c => (dictGet codes c).getD [])).flatten)) := by
  constructor
  · intro h
    exact getEncodedLoop_none codes text [] h
  · intro h
    rw [get_encoded_text, getEncodedLoop_some codes text [] h]
    simp

/-- C8 witness: with the table a:0, b:1, the text "ax" fails and the text "ab"
encodes to the concatenation of the two codes. -/
theorem c8_unknown_symbol_witness :
    get_encoded_text codesAB ['a', 'x'] = none ∧
      get_encoded_text codesAB ['a', 'b'] =
        some ((List.map (fun c => (dictGet codesAB c).getD []) ['a', 'b']).flatten) := by
  constructor
  · exact (c8_unknown_symbol codesAB ['a', 'x']).1 ⟨'x', by decide, by decide⟩
  · exact (c8_unknown_symbol codesAB ['a', 'b']).2 (by decide)

/-- C9 (confirmed).  compress reads the text and immediately replaces it by
text.rstrip() (lines 141-142), so the compressed content is the stripped text:
compressing any text equals compressing its stripped form, the text splits
into the stripped prefix plus trailing whitespace, and an all-whitespace text
strips to the empty text. -/
theorem c9_compress_rstrips (fuel : Nat) (text : List Char) :
    compressCore fuel text = compressCore fuel (pyRstrip text) ∧
      (text = pyRstrip text ++ (text.reverse.takeWhile pyIsSpace).reverse ∧
        ∀ c ∈ (text.reverse.takeWhile pyIsSpace).reverse, pyIsSpace c = true) ∧
      ((∀ c ∈ text, pyIsSpace c = true) → pyRstrip text = []) := by
  refine ⟨?_, ⟨pyRstrip_decomp text, ?_⟩, pyRstrip_all_space text⟩
  · simp only [compressCore, pyRstrip_idem]
  · intro c hc
    exact List.mem_takeWhile_imp (List.mem_reverse.mp hc)

/-- C9 witness: instantiated on the all-whitespace text of a space and a tab,
discharging the all-whitespace hypothesis. -/
theorem c9_compress_rstrips_witness :
    compressCore 9 [' ', '\t'] = compressCore 9 (pyRstrip [' ', '\t']) ∧
      pyRstrip [' ', '\t'] = [] :=
  ⟨(c9_compress_rstrips 9 [' ', '\t']).1, (c9_compress_rstrips 9 [' ', '\t']).2.2 (by decide)⟩

/-- C10 (confirmed, a genuine quirk of the code).  Whenever the first 8 bits
of the stream parse to the padding count 0, remove_padding slices
bit_string[8:][:-0], the empty slice: every data bit is discarded. -/
theorem c10_zero_header_discards_all (bit_string : List Char)
    (h : binToNat (bit_string.take 8) = some 0) : remove_padding bit_string = some [] := by
  simp [remove_padding, h]

/-- C10 witness: a zero header followed by two data bits decodes to the empty
bit string. -/
theorem c10_zero_header_discards_all_witness :
    remove_padding ['0', '0', '0', '0', '0', '0', '0', '0', '1', '1'] = some [] :=
  c10_zero_header_discards_all ['0', '0', '0', '0', '0', '0', '0', '0', '1', '1'] (by decide)
